import Mathlib

/-!
Verification of the Query Safety & Access Control Layer of the
Snowflake-SPCS-LangChain-Agent repository.

The Python source is shallowly embedded: each relevant Python function
(`SnowflakeSecurityValidator.validate_query`, `add_safety_limits`,
`SnowflakeConnector.execute_query`, `AuthManager.check_rate_limit`,
`create_access_token`, `verify_token`, and the config list parsers) is
translated into an executable Lean definition, and the specification's
claims are proved or refuted against those definitions.

Strings are modelled over their character lists.  Python's `str.upper`,
`str.strip`, `in`, `startswith`, `rstrip` and the concrete regular
expressions used by the source are modelled for the ASCII texts the
validator operates on.
-/

set_option maxRecDepth 4000

/-- Model of Python's whitespace test used by `str.strip` / `\s` (ASCII range). -/
def isPySpace (c : Char) : Bool :=
  c = ' ' || c = '\t' || c = '\n' || c = '\r' || c = '\x0b' || c = '\x0c'

/-- The 26 lower/upper case ASCII letter pairs. -/
def upperPairs : List (Char × Char) :=
  [('a', 'A'), ('b', 'B'), ('c', 'C'), ('d', 'D'), ('e', 'E'), ('f', 'F'),
   ('g', 'G'), ('h', 'H'), ('i', 'I'), ('j', 'J'), ('k', 'K'), ('l', 'L'),
   ('m', 'M'), ('n', 'N'), ('o', 'O'), ('p', 'P'), ('q', 'Q'), ('r', 'R'),
   ('s', 'S'), ('t', 'T'), ('u', 'U'), ('v', 'V'), ('w', 'W'), ('x', 'X'),
   ('y', 'Y'), ('z', 'Z')]

/-- Model of Python's `str.upper` on one character (ASCII). -/
def pyUpperChar (c : Char) : Char :=
  (((upperPairs.find? (fun p => p.1 = c)).map (fun p => p.2)).getD c)

/-- Model of Python's `str.upper` (ASCII texts). -/
def pyUpper (s : String) : String :=
  ⟨s.toList.map pyUpperChar⟩

/-- `str.strip` on character lists: drop whitespace from both ends. -/
def pyStripList (l : List Char) : List Char :=
  ((l.dropWhile isPySpace).reverse.dropWhile isPySpace).reverse

/-- Model of Python's `str.strip`. -/
def pyStrip (s : String) : String :=
  ⟨pyStripList s.toList⟩

/-- Substring test on character lists (`needle` occurs inside `hay`). -/
def listContains (needle : List Char) : List Char → Bool
  | [] => needle.isEmpty
  | c :: t => needle.isPrefixOf (c :: t) || listContains needle t

/-- Model of Python's `needle in hay` on strings. -/
def pyIn (needle hay : String) : Bool :=
  listContains needle.toList hay.toList

/-- Model of Python's `s.startswith(pre)`. -/
def pyStartsWith (s pre : String) : Bool :=
  pre.toList.isPrefixOf s.toList

/-- Model of Python's `s.rstrip(';')`: drop trailing semicolons. -/
def pyRstripSemi (s : String) : String :=
  ⟨(s.toList.reverse.dropWhile (fun c => c = ';')).reverse⟩

theorem listContains_iff_infix (needle hay : List Char) :
    listContains needle hay = true ↔ needle <:+: hay := by
  induction hay with
  | nil =>
    simp [listContains, List.isEmpty_iff, List.infix_nil]
  | cons c t ih =>
    simp only [listContains, Bool.or_eq_true, ih, List.infix_cons_iff,
      List.isPrefixOf_iff_prefix]

theorem isPySpace_pyUpperChar (c : Char) :
    isPySpace (pyUpperChar c) = isPySpace c := by
  unfold pyUpperChar
  cases hf : upperPairs.find? (fun p => p.1 = c) with
  | none => rfl
  | some p =>
    have hmem := List.mem_of_find?_eq_some hf
    have hpred := List.find?_some hf
    have hc : p.1 = c := by simpa using hpred
    have hpairs : ∀ q ∈ upperPairs, isPySpace q.1 = false ∧ isPySpace q.2 = false := by
      decide
    have h1 := (hpairs p hmem).1
    have h2 := (hpairs p hmem).2
    show isPySpace p.2 = isPySpace c
    rw [h2, ← hc, h1]

theorem infix_dropWhile_left (n l : List Char)
    (hn : ∀ c, n.head? = some c → isPySpace c = false) (h : n <:+: l) :
    n <:+: l.dropWhile isPySpace := by
  induction l with
  | nil =>
    rw [List.infix_nil.mp h]
    exact List.nil_infix
  | cons c t ih =>
    rw [List.dropWhile_cons]
    by_cases hc : isPySpace c = true
    · rw [if_pos hc]
      rcases List.infix_cons_iff.mp h with hpre | hinf
      · cases n with
        | nil => exact List.nil_infix
        | cons a m =>
          have ha : a = c := (List.cons_prefix_cons.mp hpre).1
          have := hn a rfl
          rw [ha, hc] at this
          exact absurd this (by simp)
      · exact ih hinf
    · rw [if_neg hc]
      exact h

theorem infix_pyStripList (n l : List Char)
    (h1 : ∀ c, n.head? = some c → isPySpace c = false)
    (h2 : ∀ c, n.getLast? = some c → isPySpace c = false)
    (h : n <:+: l) : n <:+: pyStripList l := by
  unfold pyStripList
  have s1 : n <:+: l.dropWhile isPySpace := infix_dropWhile_left n l h1 h
  have s2 : n.reverse <:+: (l.dropWhile isPySpace).reverse :=
    List.reverse_infix.mpr s1
  have s3 : n.reverse <:+: (l.dropWhile isPySpace).reverse.dropWhile isPySpace := by
    refine infix_dropWhile_left n.reverse _ ?_ s2
    intro c hc
    rw [List.head?_reverse] at hc
    exact h2 c hc
  have := List.reverse_infix.mpr s3
  rwa [List.reverse_reverse] at this

theorem pyStripList_eq_self_edges (n : List Char) (h : pyStripList n = n) :
    (∀ c, n.head? = some c → isPySpace c = false) ∧
    (∀ c, n.getLast? = some c → isPySpace c = false) := by
  have hlenStrip : ∀ m : List Char,
      (pyStripList m).length ≤ (m.dropWhile isPySpace).length := by
    intro m
    unfold pyStripList
    rw [List.length_reverse]
    calc ((m.dropWhile isPySpace).reverse.dropWhile isPySpace).length
        ≤ (m.dropWhile isPySpace).reverse.length :=
          (List.dropWhile_suffix isPySpace).sublist.length_le
      _ = (m.dropWhile isPySpace).length := List.length_reverse _
  have hhead : ∀ c, n.head? = some c → isPySpace c = false := by
    intro c hc
    by_contra hcs
    rw [Bool.not_eq_false] at hcs
    cases n with
    | nil => simp at hc
    | cons a t =>
      have hac : a = c := by simpa using hc
      subst hac
      have h1 : (pyStripList (a :: t)).length ≤ (t.dropWhile isPySpace).length := by
        have := hlenStrip (a :: t)
        rw [List.dropWhile_cons, if_pos hcs] at this
        exact this
      have h2 : (t.dropWhile isPySpace).length ≤ t.length :=
        (List.dropWhile_suffix isPySpace).sublist.length_le
      rw [h] at h1
      simp only [List.length_cons] at h1
      omega
  refine ⟨hhead, ?_⟩
  have hdw : n.dropWhile isPySpace = n := by
    cases n with
    | nil => rfl
    | cons a t =>
      rw [List.dropWhile_cons, if_neg (by rw [hhead a rfl]; simp)]
  intro c hc
  by_contra hcs
  rw [Bool.not_eq_false] at hcs
  have hrev : n.reverse.head? = some c := by rw [List.head?_reverse]; exact hc
  have hstr : pyStripList n = (n.reverse.dropWhile isPySpace).reverse := by
    unfold pyStripList
    rw [hdw]
  cases hre : n.reverse with
  | nil => rw [hre] at hrev; simp at hrev
  | cons a t =>
    have hac : a = c := by rw [hre] at hrev; simpa using hrev
    have hlen1 : ((n.reverse.dropWhile isPySpace).reverse).length ≤ t.length := by
      rw [List.length_reverse, hre, List.dropWhile_cons, hac, if_pos hcs]
      exact (List.dropWhile_suffix isPySpace).sublist.length_le
    rw [← hstr, h] at hlen1
    have hlen2 : n.length = t.length + 1 := by
      rw [← List.length_reverse n, hre, List.length_cons]
    omega

theorem pyStrip_pyUpper_comm (s : String) : pyStrip (pyUpper s) = pyUpper (pyStrip s) := by
  have hws : isPySpace ∘ pyUpperChar = isPySpace := by
    funext c
    exact isPySpace_pyUpperChar c
  show String.mk (pyStripList (s.toList.map pyUpperChar))
     = String.mk ((pyStripList s.toList).map pyUpperChar)
  congr 1
  unfold pyStripList
  rw [List.dropWhile_map, hws, ← List.map_reverse, List.dropWhile_map, hws,
    ← List.map_reverse]

theorem pyIn_pyStrip (needle hay : String) (hn : pyStrip needle = needle)
    (h : pyIn needle hay = true) : pyIn needle (pyStrip hay) = true := by
  have hlist : pyStripList needle.toList = needle.toList := congrArg String.data hn
  have hedges := pyStripList_eq_self_edges needle.toList hlist
  rw [pyIn, listContains_iff_infix] at h ⊢
  exact infix_pyStripList needle.toList hay.toList hedges.1 hedges.2 h

theorem head?_dropWhile_ws (l : List Char) (c : Char)
    (h : (l.dropWhile isPySpace).head? = some c) : isPySpace c = false := by
  induction l with
  | nil => simp at h
  | cons a t ih =>
    rw [List.dropWhile_cons] at h
    by_cases ha : isPySpace a = true
    · rw [if_pos ha] at h
      exact ih h
    · rw [if_neg ha] at h
      have hac : a = c := by simpa using h
      subst hac
      simpa using ha

theorem pyStripList_prefix_dropWhile (l : List Char) :
    pyStripList l <+: l.dropWhile isPySpace := by
  unfold pyStripList
  have h1 : (l.dropWhile isPySpace).reverse.dropWhile isPySpace
      <:+ (l.dropWhile isPySpace).reverse := List.dropWhile_suffix isPySpace
  have h2 := List.reverse_prefix.mpr h1
  rwa [List.reverse_reverse] at h2

theorem pyStripList_edges (l : List Char) :
    (∀ c, (pyStripList l).head? = some c → isPySpace c = false) ∧
    (∀ c, (pyStripList l).getLast? = some c → isPySpace c = false) := by
  constructor
  · intro c hc
    have hpre := pyStripList_prefix_dropWhile l
    obtain ⟨r, hr⟩ := hpre
    cases hsl : pyStripList l with
    | nil => rw [hsl] at hc; simp at hc
    | cons a m =>
      rw [hsl] at hc hr
      have hac : a = c := by simpa using hc
      subst hac
      have : (l.dropWhile isPySpace).head? = some a := by
        rw [← hr]; rfl
      exact head?_dropWhile_ws l a this
  · intro c hc
    have hrev : (pyStripList l).reverse
        = ((l.dropWhile isPySpace).reverse.dropWhile isPySpace) := by
      unfold pyStripList
      rw [List.reverse_reverse]
    have hc' : ((l.dropWhile isPySpace).reverse.dropWhile isPySpace).head? = some c := by
      rw [← hrev, List.head?_reverse]
      exact hc
    exact head?_dropWhile_ws _ c hc'

theorem pyStripList_eq_self_of_edges (n : List Char)
    (h1 : ∀ c, n.head? = some c → isPySpace c = false)
    (h2 : ∀ c, n.getLast? = some c → isPySpace c = false) :
    pyStripList n = n := by
  have hdw : n.dropWhile isPySpace = n := by
    cases n with
    | nil => rfl
    | cons a t =>
      rw [List.dropWhile_cons, if_neg (by rw [h1 a rfl]; simp)]
  have hdwr : n.reverse.dropWhile isPySpace = n.reverse := by
    cases hre : n.reverse with
    | nil => rfl
    | cons a t =>
      have ha : n.getLast? = some a := by
        rw [← List.head?_reverse, hre]
        rfl
      rw [List.dropWhile_cons, if_neg (by rw [h2 a ha]; simp)]
  unfold pyStripList
  rw [hdw, hdwr, List.reverse_reverse]

theorem pyStripList_idem (l : List Char) :
    pyStripList (pyStripList l) = pyStripList l :=
  pyStripList_eq_self_of_edges (pyStripList l) (pyStripList_edges l).1 (pyStripList_edges l).2

theorem pyStrip_idem (s : String) : pyStrip (pyStrip s) = pyStrip s := by
  show String.mk (pyStripList (pyStrip s).toList) = pyStrip s
  have : (pyStrip s).toList = pyStripList s.toList := rfl
  rw [this, pyStripList_idem]
  rfl

/-- Character-list splitter behind Python's `s.split(",")`. -/
def splitCommaAux : List Char → List Char → List (List Char)
  | acc, [] => [acc.reverse]
  | acc, c :: t => if c = ',' then acc.reverse :: splitCommaAux [] t else splitCommaAux (c :: acc) t

/-- Model of Python's `s.split(",")`. -/
def pySplitComma (s : String) : List String :=
  (splitCommaAux [] s.toList).map (fun l => ⟨l⟩)

/-- Model of `SnowflakeConfig.get_blocked_operations_list`:
on an empty setting return the default list, otherwise split on commas,
strip each entry and keep the non-empty ones. -/
def get_blocked_operations_list (blocked_operations : String) : List String :=
  if blocked_operations = "" then ["DROP", "DELETE", "UPDATE", "INSERT", "CREATE", "ALTER"]
  else (pySplitComma blocked_operations).filterMap
    (fun op => if pyStrip op = "" then none else some (pyStrip op))

/-- Model of `SnowflakeConfig.get_allowed_tables_list`. -/
def get_allowed_tables_list (allowed_tables : String) : List String :=
  if allowed_tables = "" then []
  else (pySplitComma allowed_tables).filterMap
    (fun t => if pyStrip t = "" then none else some (pyStrip t))

/-- Every blocked-operation entry the config parser produces is
strip-invariant: the parser strips entries and the defaults carry no
edge whitespace. -/
theorem blocked_operations_strip_invariant (s : String) :
    ∀ op ∈ get_blocked_operations_list s, pyStrip op = op := by
  intro op hop
  unfold get_blocked_operations_list at hop
  by_cases hs : s = ""
  · rw [if_pos hs] at hop
    fin_cases hop <;> decide
  · rw [if_neg hs] at hop
    rcases List.mem_filterMap.mp hop with ⟨b, _, hb⟩
    by_cases hbe : pyStrip b = ""
    · rw [if_pos hbe] at hb
      exact absurd hb (by simp)
    · rw [if_neg hbe] at hb
      have : pyStrip b = op := by simpa using hb
      rw [← this]
      exact pyStrip_idem b

/-- Python's `\w` word-character class (ASCII range). -/
def isPyWordChar (c : Char) : Bool :=
  c.isAlphanum || c = '_'

/-- Match a literal character sequence (case sensitive), returning the rest. -/
def stripLit : List Char → List Char → Option (List Char)
  | [], l => some l
  | _ :: _, [] => none
  | w :: ws, c :: t => if c = w then stripLit ws t else none

/-- Match a literal character sequence case-insensitively (re.IGNORECASE). -/
def stripLitCI : List Char → List Char → Option (List Char)
  | [], l => some l
  | _ :: _, [] => none
  | w :: ws, c :: t => if pyUpperChar c = pyUpperChar w then stripLitCI ws t else none

/-- Greedy `\s+`: at least one whitespace character, then the maximal run. -/
def pmWsPlus : List Char → Option (List Char)
  | [] => none
  | c :: t => if isPySpace c then some (t.dropWhile isPySpace) else none

/-- Greedy `\w+`: at least one word character, then the maximal run. -/
def pmWordPlus : List Char → Option (List Char)
  | [] => none
  | c :: t => if isPyWordChar c then some (t.dropWhile isPyWordChar) else none

/-- Case-insensitive literal for string patterns. -/
def pmLitCI (w : String) (l : List Char) : Option (List Char) :=
  stripLitCI w.toList l

theorem stripLit_some_length (w : List Char) :
    ∀ l r, stripLit w l = some r → r.length + w.length = l.length := by
  induction w with
  | nil =>
    intro l r h
    simp only [stripLit, Option.some_inj] at h
    simp [← h]
  | cons a ws ih =>
    intro l r h
    cases l with
    | nil => simp [stripLit] at h
    | cons c t =>
      simp only [stripLit] at h
      by_cases hca : c = a
      · rw [if_pos hca] at h
        have := ih t r h
        simp only [List.length_cons]
        omega
      · rw [if_neg hca] at h
        simp at h

theorem stripLitCI_some_length (w : List Char) :
    ∀ l r, stripLitCI w l = some r → r.length + w.length = l.length := by
  induction w with
  | nil =>
    intro l r h
    simp only [stripLitCI, Option.some_inj] at h
    simp [← h]
  | cons a ws ih =>
    intro l r h
    cases l with
    | nil => simp [stripLitCI] at h
    | cons c t =>
      simp only [stripLitCI] at h
      by_cases hca : pyUpperChar c = pyUpperChar a
      · rw [if_pos hca] at h
        have := ih t r h
        simp only [List.length_cons]
        omega
      · rw [if_neg hca] at h
        simp at h

theorem pmWsPlus_lt (l r : List Char) (h : pmWsPlus l = some r) :
    r.length < l.length := by
  cases l with
  | nil => simp [pmWsPlus] at h
  | cons c t =>
    simp only [pmWsPlus] at h
    by_cases hc : isPySpace c = true
    · rw [if_pos hc] at h
      have hr : r = t.dropWhile isPySpace := by simpa using h.symm
      have := (List.dropWhile_suffix (l := t) isPySpace).sublist.length_le
      rw [hr]
      simp only [List.length_cons]
      omega
    · rw [if_neg hc] at h
      simp at h

theorem pmLitCI_le (w : String) (l r : List Char) (h : pmLitCI w l = some r) :
    r.length ≤ l.length := by
  have := stripLitCI_some_length w.toList l r h
  omega


/-- Anchored match of the table-extraction pattern `FROM\s+(\w+\.\w+|\w+)`
at the head of `l` (case sensitive: `re.findall` is invoked without flags
on the upper-cased text).  Returns the captured group and the rest of the
input after the match.  The alternation needs no backtracking search: a
word character never equals `.` and never satisfies `\s`, so the greedy
maximal runs are the only candidates. -/
def matchFromAt (l : List Char) : Option (List Char × List Char) :=
  match stripLit ['F', 'R', 'O', 'M'] l with
  | none => none
  | some r1 =>
    match r1 with
    | [] => none
    | c :: t1 =>
      if isPySpace c then
        match t1.dropWhile isPySpace with
        | [] => none
        | d :: t2 =>
          if isPyWordChar d then
            match (d :: t2).dropWhile isPyWordChar with
            | [] => some ((d :: t2).takeWhile isPyWordChar, [])
            | x :: r4 =>
              if x = '.' then
                match r4 with
                | [] => some ((d :: t2).takeWhile isPyWordChar, x :: r4)
                | e :: _ =>
                  if isPyWordChar e then
                    some ((d :: t2).takeWhile isPyWordChar ++ '.' :: r4.takeWhile isPyWordChar,
                      r4.dropWhile isPyWordChar)
                  else some ((d :: t2).takeWhile isPyWordChar, x :: r4)
              else some ((d :: t2).takeWhile isPyWordChar, x :: r4)
          else none
      else none

theorem matchFromAt_rest_lt (l : List Char) (g rest : List Char)
    (h : matchFromAt l = some (g, rest)) : rest.length < l.length := by
  unfold matchFromAt at h
  split at h
  · simp at h
  · rename_i r1 hs
    have hr1 : r1.length + 4 = l.length := stripLit_some_length _ l r1 hs
    split at h
    · simp at h
    · rename_i c t1
      simp only [List.length_cons] at hr1
      split at h
      · split at h
        · simp at h
        · rename_i hc d t2 hr2
          have hlen2 : (d :: t2).length ≤ t1.length := by
            rw [← hr2]
            exact (List.dropWhile_suffix isPySpace).sublist.length_le
          have hlen3 : ((d :: t2).dropWhile isPyWordChar).length ≤ (d :: t2).length :=
            (List.dropWhile_suffix isPyWordChar).sublist.length_le
          simp only [List.length_cons] at hlen2
          split at h
          · split at h
            · simp only [Option.some_inj, Prod.mk.injEq] at h
              rw [← h.2]
              simp only [List.length_nil]
              omega
            · rename_i x r4 hr3
              have hlen4 : (x :: r4).length ≤ (d :: t2).length := by
                rw [← hr3]
                exact hlen3
              simp only [List.length_cons] at hlen4
              split at h
              · split at h
                · simp only [Option.some_inj, Prod.mk.injEq] at h
                  rw [← h.2]
                  simp only [List.length_cons, List.length_nil]
                  omega
                · rename_i e t4
                  simp only [List.length_cons] at hlen4
                  split at h
                  · simp only [Option.some_inj, Prod.mk.injEq] at h
                    have h5 : ((e :: t4).dropWhile isPyWordChar).length ≤ (e :: t4).length :=
                      (List.dropWhile_suffix isPyWordChar).sublist.length_le
                    rw [← h.2]
                    simp only [List.length_cons] at h5 ⊢
                    omega
                  · simp only [Option.some_inj, Prod.mk.injEq] at h
                    rw [← h.2]
                    simp only [List.length_cons]
                    omega
              · simp only [Option.some_inj, Prod.mk.injEq] at h
                rw [← h.2]
                simp only [List.length_cons]
                omega
          · simp at h
      · simp at h

/-- `re.findall(r'FROM\s+(\w+\.\w+|\w+)', text)`: scan left to right,
collect the captured group of each non-overlapping match and resume
after the matched text.  The fuel argument only bounds the recursion;
`findAllFromAux_congr` below shows any fuel of at least the input
length — in particular the `l.length` used by `findAllFromList` —
computes the same scan, since every step consumes at least one
character (`matchFromAt_rest_lt`). -/
def findAllFromAux : Nat → List Char → List (List Char)
  | 0, _ => []
  | _ + 1, [] => []
  | fuel + 1, c :: t =>
    match matchFromAt (c :: t) with
    | some (g, rest) => g :: findAllFromAux fuel rest
    | none => findAllFromAux fuel t

/-- The `re.findall` scan over a character list. -/
def findAllFromList (l : List Char) : List (List Char) :=
  findAllFromAux l.length l

/-- The table names `re.findall` extracts from a statement. -/
def findAllFromTables (s : String) : List String :=
  (findAllFromList s.toList).map (fun l => ⟨l⟩)

theorem findAllFromAux_congr :
    ∀ (f1 f2 : Nat) (l : List Char), l.length ≤ f1 → l.length ≤ f2 →
      findAllFromAux f1 l = findAllFromAux f2 l := by
  intro f1
  induction f1 with
  | zero =>
    intro f2 l h1 _
    have hl : l = [] := List.length_eq_zero.mp (Nat.le_zero.mp h1)
    subst hl
    cases f2 with
    | zero => rfl
    | succ f2' => rfl
  | succ f1' ih =>
    intro f2 l h1 h2
    cases l with
    | nil =>
      cases f2 with
      | zero => rfl
      | succ f2' => rfl
    | cons c t =>
      cases f2 with
      | zero => simp at h2
      | succ f2' =>
        simp only [List.length_cons] at h1 h2
        show (match matchFromAt (c :: t) with
          | some (g, rest) => g :: findAllFromAux f1' rest
          | none => findAllFromAux f1' t) =
          (match matchFromAt (c :: t) with
          | some (g, rest) => g :: findAllFromAux f2' rest
          | none => findAllFromAux f2' t)
        cases hm : matchFromAt (c :: t) with
        | some p =>
          rcases p with ⟨g, rest⟩
          have hrest := matchFromAt_rest_lt (c :: t) g rest (by rw [hm])
          simp only [List.length_cons] at hrest
          show g :: findAllFromAux f1' rest = g :: findAllFromAux f2' rest
          rw [ih f2' rest (by omega) (by omega)]
        | none =>
          exact ih f2' t (by omega) (by omega)

/-- Anchored match of `DROP\s+TABLE` (re.IGNORECASE). -/
def matchSusp1 (l : List Char) : Bool :=
  (((pmLitCI "DROP" l).bind pmWsPlus).bind (pmLitCI "TABLE")).isSome

/-- Anchored match of `DELETE\s+FROM` (re.IGNORECASE). -/
def matchSusp2 (l : List Char) : Bool :=
  (((pmLitCI "DELETE" l).bind pmWsPlus).bind (pmLitCI "FROM")).isSome

/-- Anchored match of `UPDATE\s+\w+\s+SET` (re.IGNORECASE). -/
def matchSusp3 (l : List Char) : Bool :=
  (((((pmLitCI "UPDATE" l).bind pmWsPlus).bind pmWordPlus).bind pmWsPlus).bind
    (pmLitCI "SET")).isSome

/-- Anchored match of `INSERT\s+INTO` (re.IGNORECASE). -/
def matchSusp4 (l : List Char) : Bool :=
  (((pmLitCI "INSERT" l).bind pmWsPlus).bind (pmLitCI "INTO")).isSome

/-- Anchored match of `CREATE\s+TABLE` (re.IGNORECASE). -/
def matchSusp5 (l : List Char) : Bool :=
  (((pmLitCI "CREATE" l).bind pmWsPlus).bind (pmLitCI "TABLE")).isSome

/-- Anchored match of `ALTER\s+TABLE` (re.IGNORECASE). -/
def matchSusp6 (l : List Char) : Bool :=
  (((pmLitCI "ALTER" l).bind pmWsPlus).bind (pmLitCI "TABLE")).isSome

/-- Anchored match of `TRUNCATE` (re.IGNORECASE). -/
def matchSusp7 (l : List Char) : Bool :=
  (pmLitCI "TRUNCATE" l).isSome

/-- Anchored match of `;\s*--` (re.IGNORECASE): a literal `;`, any
whitespace run, then `--`. -/
def matchSusp8 (l : List Char) : Bool :=
  (((pmLitCI ";" l).map (List.dropWhile isPySpace)).bind (pmLitCI "--")).isSome

/-- Anchored match of `/\*.*\*/` (re.IGNORECASE): `/*`, then `.*` —
which cannot cross a newline — then `*/`.  The greedy `.*` with
backtracking succeeds exactly when `*/` occurs before the first
newline of the remaining text. -/
def matchSusp9 (l : List Char) : Bool :=
  match l with
  | '/' :: '*' :: rest => listContains ['*', '/'] (rest.takeWhile (fun c => c != '\n'))
  | _ => false

/-- `re.search(pattern, text)` as a Boolean: the anchored matcher
succeeds at some position (every suffix, the empty one included). -/
def existsPos (p : List Char → Bool) : List Char → Bool
  | [] => p []
  | c :: t => p (c :: t) || existsPos p t

/-- Boolean `re.search` over a string. -/
def reSearch (p : List Char → Bool) (s : String) : Bool :=
  existsPos p s.toList

/-- The `suspicious_patterns` loop of `validate_query`: return the raw
pattern text of the first pattern found in the statement, in source
order. -/
def firstSuspicious (query_upper : String) : Option String :=
  if reSearch matchSusp1 query_upper then some "DROP\\s+TABLE"
  else if reSearch matchSusp2 query_upper then some "DELETE\\s+FROM"
  else if reSearch matchSusp3 query_upper then some "UPDATE\\s+\\w+\\s+SET"
  else if reSearch matchSusp4 query_upper then some "INSERT\\s+INTO"
  else if reSearch matchSusp5 query_upper then some "CREATE\\s+TABLE"
  else if reSearch matchSusp6 query_upper then some "ALTER\\s+TABLE"
  else if reSearch matchSusp7 query_upper then some "TRUNCATE"
  else if reSearch matchSusp8 query_upper then some ";\\s*--"
  else if reSearch matchSusp9 query_upper then some "/\\*.*\\*/"
  else none

/-- The blocked-operations loop of `validate_query`: the first entry
whose upper-cased text occurs in the (already upper-cased, stripped)
statement. -/
def findBlocked (query_upper : String) : List String → Option String
  | [] => none
  | op :: rest =>
    if pyIn (pyUpper op) query_upper then some op else findBlocked query_upper rest

/-- Python's `s.replace(c, '')`: delete every occurrence of `c`. -/
def pyReplaceDel (c : Char) (s : String) : String :=
  ⟨s.toList.filter (fun d => d != c)⟩

/-- `table.replace('"', '').replace("'", '')` from `validate_query`. -/
def stripQuotes (s : String) : String :=
  pyReplaceDel (Char.ofNat 39) (pyReplaceDel '"' s)

/-- The table-allowlist loop of `validate_query`: the first extracted
table whose cleaned, upper-cased name is not among the upper-cased
allowed tables. -/
def firstDisallowed (allowed : List String) : List String → Option String
  | [] => none
  | t :: ts =>
    if (allowed.map pyUpper).contains (pyUpper (stripQuotes t)) then
      firstDisallowed allowed ts
    else some (stripQuotes t)

/-- The fields of `SnowflakeSecurityValidator` as loaded from config. -/
structure SnowflakeSecurityValidator where
  blocked_operations : List String
  allowed_tables : List String
  max_rows : Nat
  max_timeout : Nat

/-- `SnowflakeSecurityValidator.validate_query`: blocked-operation scan,
then table allowlist (only when restrictions are set), then suspicious
patterns; first failing check returns `(False, reason)`, otherwise
`(True, "Query is valid")`. -/
def validate_query (v : SnowflakeSecurityValidator) (query : String) : Bool × String :=
  let query_upper := pyStrip (pyUpper query)
  match findBlocked query_upper v.blocked_operations with
  | some op => (false, "Operation \x27" ++ op ++ "\x27 is not allowed")
  | none =>
    match (if v.allowed_tables.isEmpty then none
           else firstDisallowed v.allowed_tables (findAllFromTables query_upper)) with
    | some tc => (false, "Access to table \x27" ++ tc ++ "\x27 is not allowed")
    | none =>
      match firstSuspicious query_upper with
      | some pat => (false, "Query contains suspicious pattern: " ++ pat)
      | none => (true, "Query is valid")

/-- Anchored match of the `re.sub` pattern `(\s+ORDER\s+BY\s+)`
(re.IGNORECASE), returning the rest of the input after the matched
(captured) text. -/
def matchOrderByAt (l : List Char) : Option (List Char) :=
  ((((pmWsPlus l).bind (pmLitCI "ORDER")).bind pmWsPlus).bind (pmLitCI "BY")).bind pmWsPlus

theorem matchOrderByAt_lt (l r : List Char) (h : matchOrderByAt l = some r) :
    r.length < l.length := by
  unfold matchOrderByAt at h
  rcases Option.bind_eq_some.mp h with ⟨x4, hx4, h5⟩
  rcases Option.bind_eq_some.mp hx4 with ⟨x3, hx3, h4⟩
  rcases Option.bind_eq_some.mp hx3 with ⟨x2, hx2, h3⟩
  rcases Option.bind_eq_some.mp hx2 with ⟨x1, hx1, h2⟩
  have l1 := pmWsPlus_lt l x1 hx1
  have l2 := pmLitCI_le "ORDER" x1 x2 h2
  have l3 := pmWsPlus_lt x2 x3 h3
  have l4 := pmLitCI_le "BY" x3 x4 h4
  have l5 := pmWsPlus_lt x4 r h5
  omega

/-- `re.sub(r'(\s+ORDER\s+BY\s+)', ' LIMIT {max_rows} \1', query,
flags=re.IGNORECASE)`: replace every non-overlapping match, resuming
after the matched text; the replacement re-emits the captured match
after the inserted limit text. -/
def subOrderByList (n : Nat) : List Char → List Char
  | [] => []
  | c :: t =>
    match h : matchOrderByAt (c :: t) with
    | some rest =>
      (" LIMIT " ++ toString n ++ " ").toList
        ++ (c :: t).take ((c :: t).length - rest.length)
        ++ subOrderByList n rest
    | none => c :: subOrderByList n t
termination_by l => l.length
decreasing_by
  · exact matchOrderByAt_lt _ _ h
  · simp only [List.length_cons]
    omega

/-- `SnowflakeSecurityValidator.add_safety_limits`: skip system,
aggregation and already-limited statements; otherwise, for `SELECT`
statements, insert ` LIMIT max_rows ` before an `ORDER BY` clause or
append ` LIMIT max_rows` at the end after stripping trailing `;`. -/
def add_safety_limits (v : SnowflakeSecurityValidator) (query : String) : String :=
  let query_upper := pyStrip (pyUpper query)
  let skip :=
    pyIn "COUNT(" query_upper || pyIn "SUM(" query_upper || pyIn "AVG(" query_upper ||
    pyIn "MIN(" query_upper || pyIn "MAX(" query_upper ||
    pyIn "INFORMATION_SCHEMA" query_upper || pyIn "SHOW " query_upper ||
    pyIn "DESCRIBE " query_upper || pyIn "LIMIT" query_upper
  if pyStartsWith query_upper "SELECT" && !skip then
    if pyIn "ORDER BY" query_upper then
      ⟨subOrderByList v.max_rows query.toList⟩
    else
      pyRstripSemi query ++ " LIMIT " ++ toString v.max_rows
  else query

/-- One warehouse-side effect of `SnowflakeConnector.execute_query`. -/
inductive WhAction where
  | connect : WhAction
  | openCursor : WhAction
  | execStmt : String → WhAction
deriving DecidableEq

/-- The successful result dictionary of `execute_query` (the fields the
claims are about). -/
structure ExecResult where
  data : List (List String)
  row_count : Nat
  query : String
deriving DecidableEq

/-- `SnowflakeConnector.execute_query`: validate, raise
`ValueError(f"Query validation failed: {message}")` on rejection before
any connection use; otherwise rewrite, connect, open a cursor, set the
session timeout and run the rewritten statement.  The warehouse driver
is external and is modelled by the row oracle `runQ`; the returned
action list records every operation performed on the connection. -/
def execute_query (v : SnowflakeSecurityValidator) (runQ : String → List (List String))
    (query : String) : Except String ExecResult × List WhAction :=
  let r := validate_query v query
  if r.1 = false then
    (Except.error ("Query validation failed: " ++ r.2), [])
  else
    let safe_query := add_safety_limits v query
    let rows := runQ safe_query
    (Except.ok { data := rows, row_count := rows.length, query := safe_query },
     [WhAction.connect, WhAction.openCursor,
      WhAction.execStmt ("ALTER SESSION SET STATEMENT_TIMEOUT_IN_SECONDS = "
        ++ toString v.max_timeout),
      WhAction.execStmt safe_query])

/-- `AuthManager.check_rate_limit` for one caller identity.  The
source keeps `rate_limits: Dict[str, list]` and each call reads and
writes only the entry of `client_ip`, so one identity's window is an
independent list of timestamps.  Timestamps (`time.time()` seconds)
are modelled as rationals.  Retain the timestamps newer than
`now - rate_limit_window`; reject without recording when already at
the ceiling, otherwise record `now` and accept. -/
def check_rate_limit (rate_limit_requests : Nat) (rate_limit_window : ℚ)
    (st : List ℚ) (now : ℚ) : Bool × List ℚ :=
  let kept := st.filter (fun ts => decide (now - rate_limit_window < ts))
  if rate_limit_requests ≤ kept.length then (false, kept) else (true, kept ++ [now])

/-- Run a sequence of admission checks, returning the admitted timestamps. -/
def admittedTimes (m : Nat) (w : ℚ) : List ℚ → List ℚ → List ℚ
  | _, [] => []
  | st, t :: ts =>
    let r := check_rate_limit m w st t
    if r.1 then t :: admittedTimes m w r.2 ts else admittedTimes m w r.2 ts

/-- Run a sequence of admission checks, returning the decisions. -/
def admitDecisions (m : Nat) (w : ℚ) : List ℚ → List ℚ → List Bool
  | _, [] => []
  | st, t :: ts =>
    let r := check_rate_limit m w st t
    r.1 :: admitDecisions m w r.2 ts

/-- Run a sequence of admission checks, returning the final window. -/
def runState (m : Nat) (w : ℚ) : List ℚ → List ℚ → List ℚ
  | st, [] => st
  | st, t :: ts => runState m w (check_rate_limit m w st t).2 ts

/-- A JSON claim value (the payloads here carry strings and integers). -/
inductive JsonVal where
  | vStr : String → JsonVal
  | vInt : Int → JsonVal
deriving DecidableEq

/-- Python `dict` update on an association list with unique keys:
replace the value in place or append the new key. -/
def dictSet : List (String × JsonVal) → String → JsonVal → List (String × JsonVal)
  | [], k, v => [(k, v)]
  | (k', v') :: t, k, v =>
    if k' = k then (k, v) :: t else (k', v') :: dictSet t k v

/-- Python `dict.get` on an association list. -/
def dictGet : List (String × JsonVal) → String → Option JsonVal
  | [], _ => none
  | (k', v') :: t, k => if k' = k then some v' else dictGet t k

/-- A signed JWT: the encoded payload together with the key and
algorithm it was signed with.  Times are UTC seconds as integers. -/
structure Token where
  payload : List (String × JsonVal)
  key : String
  alg : String
deriving DecidableEq

/-- The decode failures of the external jose library (`JWTError`
subclasses) relevant here. -/
inductive JoseError where
  | expired : JoseError
  | invalidSignature : JoseError
deriving DecidableEq

/-- Model of `jose.jwt.encode(payload, key, algorithm)`: a signed,
tamper-evident encoding of the payload. -/
def jwt_encode (payload : List (String × JsonVal)) (key alg : String) : Token :=
  ⟨payload, key, alg⟩

/-- Model of `jose.jwt.decode(token, key, algorithms=[alg])` (external
library): verify the signature against the expected key and algorithm,
then validate the `exp` claim — `ExpiredSignatureError` exactly when
`exp < now` (default zero leeway); on success return the full payload. -/
def jwt_decode (tok : Token) (key alg : String) (now : Int) :
    Except JoseError (List (String × JsonVal)) :=
  if tok.key = key ∧ tok.alg = alg then
    match dictGet tok.payload "exp" with
    | some (JsonVal.vInt e) =>
      if e < now then Except.error JoseError.expired else Except.ok tok.payload
    | _ => Except.ok tok.payload
  else Except.error JoseError.invalidSignature

/-- `AuthManager.create_access_token`: copy the data, set `exp` to
`now + expires_delta` (or `now + access_token_expire_minutes` minutes)
and sign the result. -/
def create_access_token (secret_key alg : String) (access_token_expire_minutes : Int)
    (data : List (String × JsonVal)) (now : Int) (expires_delta : Option Int) : Token :=
  let expire := now + expires_delta.getD (access_token_expire_minutes * 60)
  jwt_encode (dictSet data "exp" (JsonVal.vInt expire)) secret_key alg

/-- `AuthManager.verify_token`: decode with the manager's key and
algorithm; any `JWTError` becomes the single HTTP 401
"Could not validate credentials" failure. -/
def verify_token (secret_key alg : String) (tok : Token) (now : Int) :
    Except String (List (String × JsonVal)) :=
  match jwt_decode tok secret_key alg now with
  | Except.ok p => Except.ok p
  | Except.error _ => Except.error "Could not validate credentials"

theorem pyStripList_infix_self (l : List Char) : pyStripList l <:+: l :=
  (pyStripList_prefix_dropWhile l).isInfix.trans (List.dropWhile_suffix isPySpace).isInfix

theorem pyIn_of_pyIn_pyStrip (needle hay : String)
    (h : pyIn needle (pyStrip hay) = true) : pyIn needle hay = true := by
  rw [pyIn, listContains_iff_infix] at h ⊢
  exact h.trans (pyStripList_infix_self hay.toList)

theorem findBlocked_some_of_exists (qU : String) (ops : List String)
    (h : ∃ op ∈ ops, pyIn (pyUpper op) qU = true) :
    ∃ op ∈ ops, pyIn (pyUpper op) qU = true ∧ findBlocked qU ops = some op := by
  induction ops with
  | nil => simp at h
  | cons a rest ih =>
    by_cases ha : pyIn (pyUpper a) qU = true
    · exact ⟨a, List.mem_cons_self a rest, ha, by simp [findBlocked, ha]⟩
    · rcases h with ⟨op, hmem, hop⟩
      rcases List.mem_cons.mp hmem with rfl | hmem'
      · exact absurd hop ha
      · rcases ih ⟨op, hmem', hop⟩ with ⟨op', hmem'', hop', hfind⟩
        exact ⟨op', List.mem_cons_of_mem a hmem'', hop',
          by simp [findBlocked, ha, hfind]⟩

theorem findBlocked_none_of_forall (qU : String) (ops : List String)
    (h : ∀ op ∈ ops, pyIn (pyUpper op) qU = false) :
    findBlocked qU ops = none := by
  induction ops with
  | nil => rfl
  | cons a rest ih =>
    have ha := h a (List.mem_cons_self a rest)
    simp only [findBlocked, ha]
    exact ih (fun op hop => h op (List.mem_cons_of_mem a hop))

theorem validate_query_of_findBlocked_some (v : SnowflakeSecurityValidator)
    (q : String) (op : String)
    (h : findBlocked (pyStrip (pyUpper q)) v.blocked_operations = some op) :
    validate_query v q = (false, "Operation \x27" ++ op ++ "\x27 is not allowed") := by
  simp only [validate_query, h]

theorem pyIn_left_append (mid pre suf : String) :
    pyIn mid (pre ++ mid ++ suf) = true := by
  rw [pyIn, listContains_iff_infix]
  refine ⟨pre.toList, suf.toList, ?_⟩
  show pre.data ++ mid.data ++ suf.data = (pre ++ mid ++ suf).data
  rw [String.data_append, String.data_append]

/-- The validator under the default configuration
(`SNOWFLAKE_BLOCKED_OPERATIONS` and `SNOWFLAKE_ALLOWED_TABLES` unset). -/
def defaultValidator : SnowflakeSecurityValidator :=
  ⟨get_blocked_operations_list "", get_allowed_tables_list "", 10000, 300⟩

/-- The default validator with the allowlist `{customers, products}`
from the specification's scenario. -/
def allowlistValidator : SnowflakeSecurityValidator :=
  ⟨get_blocked_operations_list "", ["customers", "products"], 10000, 300⟩

/-- C1: for every statement and every policy (whose blocked-operation
entries are strip-invariant, as `get_blocked_operations_list` always
produces), if the upper-cased statement contains the upper-casing of
some blocked entry as a substring — in any letter-casing, inside string
literals or longer identifiers included — then `validate_query` rejects,
and the rejection reason contains a matched entry. -/
theorem C1_blocked_keyword_rejects (v : SnowflakeSecurityValidator) (q : String)
    (hops : ∀ op ∈ v.blocked_operations, pyStrip op = op)
    (hmatch : ∃ op ∈ v.blocked_operations, pyIn (pyUpper op) (pyUpper q) = true) :
    (validate_query v q).1 = false ∧
    ∃ op ∈ v.blocked_operations,
      pyIn (pyUpper op) (pyUpper q) = true ∧ pyIn op (validate_query v q).2 = true := by
  have hstripped : ∃ op ∈ v.blocked_operations,
      pyIn (pyUpper op) (pyStrip (pyUpper q)) = true := by
    rcases hmatch with ⟨op, hmem, hop⟩
    refine ⟨op, hmem, ?_⟩
    refine pyIn_pyStrip (pyUpper op) (pyUpper q) ?_ hop
    rw [pyStrip_pyUpper_comm, hops op hmem]
  rcases findBlocked_some_of_exists _ _ hstripped with ⟨op₀, hmem₀, hop₀, hfind⟩
  have hval := validate_query_of_findBlocked_some v q op₀ hfind
  refine ⟨by rw [hval], op₀, hmem₀, pyIn_of_pyIn_pyStrip _ _ hop₀, ?_⟩
  rw [hval]
  exact pyIn_left_append op₀ "Operation \x27" "\x27 is not allowed"

/-- Witness for C1 at the default policy and the statement
`"Drop Table customers"`. -/
theorem C1_blocked_keyword_rejects_witness :
    (∀ op ∈ defaultValidator.blocked_operations, pyStrip op = op) ∧
    (∃ op ∈ defaultValidator.blocked_operations,
      pyIn (pyUpper op) (pyUpper "Drop Table customers") = true) ∧
    ((validate_query defaultValidator "Drop Table customers").1 = false ∧
     ∃ op ∈ defaultValidator.blocked_operations,
       pyIn (pyUpper op) (pyUpper "Drop Table customers") = true ∧
       pyIn op (validate_query defaultValidator "Drop Table customers").2 = true) :=
  ⟨by decide, by decide,
    C1_blocked_keyword_rejects defaultValidator "Drop Table customers"
      (by decide) (by decide)⟩

theorem pyStripList_eq_nil_of_all_ws (l : List Char)
    (h : ∀ c ∈ l, isPySpace c = true) : pyStripList l = [] := by
  have hdw : l.dropWhile isPySpace = [] := List.dropWhile_eq_nil_iff.mpr h
  unfold pyStripList
  rw [hdw]
  rfl

/-- C3 counterexample: the empty statement is accepted by
`validate_query` under the default policy — there is no invalid-input
rejection in the code. -/
theorem C3_empty_statement_counterexample :
    validate_query defaultValidator "" = (true, "Query is valid") ∧
    (validate_query defaultValidator "").1 ≠ false := by
  decide

/-- C3 amended: for every empty or whitespace-only statement (and any
policy whose blocked-operation entries are non-empty, as the config
parser guarantees), `validate_query` returns `Accepted` with reason
`"Query is valid"` — it is not rejected at all. -/
theorem C3_empty_statement_accepted (v : SnowflakeSecurityValidator) (q : String)
    (hws : ∀ c ∈ q.toList, isPySpace c = true)
    (hops : ∀ op ∈ v.blocked_operations, op ≠ "") :
    validate_query v q = (true, "Query is valid") := by
  have hq : pyStrip (pyUpper q) = "" := by
    show String.mk (pyStripList (q.toList.map pyUpperChar)) = ""
    have : pyStripList (q.toList.map pyUpperChar) = [] := by
      refine pyStripList_eq_nil_of_all_ws _ ?_
      intro c hc
      rcases List.mem_map.mp hc with ⟨d, hd, rfl⟩
      rw [isPySpace_pyUpperChar]
      exact hws d hd
    rw [this]
  have hblocked : findBlocked "" v.blocked_operations = none := by
    refine findBlocked_none_of_forall _ _ ?_
    intro op hop
    have hne : op.toList ≠ [] := by
      intro hnil
      refine hops op hop ?_
      cases op with
      | mk data =>
        have hd : data = [] := hnil
        rw [hd]
    show listContains (pyUpper op).toList [] = false
    show ((pyUpper op).toList).isEmpty = false
    have : (pyUpper op).toList = op.toList.map pyUpperChar := rfl
    rw [this, List.isEmpty_eq_false]
    simpa using hne
  simp only [validate_query, hq, hblocked]
  have htables : (if v.allowed_tables.isEmpty then none
      else firstDisallowed v.allowed_tables (findAllFromTables "")) = none := by
    have : findAllFromTables "" = [] := rfl
    rw [this]
    show (if v.allowed_tables.isEmpty then none else none) = none
    exact ite_self none
  rw [htables]
  have hsusp : firstSuspicious "" = none := by decide
  rw [hsusp]

/-- Witness for the amended C3 at the whitespace-only statement `"  "`. -/
theorem C3_empty_statement_accepted_witness :
    (∀ c ∈ ("  " : String).toList, isPySpace c = true) ∧
    (∀ op ∈ defaultValidator.blocked_operations, op ≠ "") ∧
    validate_query defaultValidator "  " = (true, "Query is valid") :=
  ⟨by decide, by decide,
    C3_empty_statement_accepted defaultValidator "  " (by decide) (by decide)⟩

theorem firstDisallowed_some_of_exists (allowed ts : List String)
    (h : ∃ t ∈ ts, ((allowed.map pyUpper).contains (pyUpper (stripQuotes t))) = false) :
    ∃ t ∈ ts, ((allowed.map pyUpper).contains (pyUpper (stripQuotes t))) = false ∧
      firstDisallowed allowed ts = some (stripQuotes t) := by
  induction ts with
  | nil => simp at h
  | cons a rest ih =>
    by_cases ha : ((allowed.map pyUpper).contains (pyUpper (stripQuotes a))) = false
    · refine ⟨a, List.mem_cons_self a rest, ha, ?_⟩
      simp only [firstDisallowed, ha]
      rfl
    · rw [Bool.not_eq_false] at ha
      rcases h with ⟨t, hmem, ht⟩
      rcases List.mem_cons.mp hmem with rfl | hmem'
      · rw [ha] at ht
        exact absurd ht (by simp)
      · rcases ih ⟨t, hmem', ht⟩ with ⟨t', hmem'', ht', hfind⟩
        refine ⟨t', List.mem_cons_of_mem a hmem'', ht', ?_⟩
        simp only [firstDisallowed, ha]
        exact hfind

theorem firstDisallowed_none_of_forall (allowed ts : List String)
    (h : ∀ t ∈ ts, ((allowed.map pyUpper).contains (pyUpper (stripQuotes t))) = true) :
    firstDisallowed allowed ts = none := by
  induction ts with
  | nil => rfl
  | cons a rest ih =>
    have ha := h a (List.mem_cons_self a rest)
    simp only [firstDisallowed, ha, if_true]
    exact ih (fun t ht => h t (List.mem_cons_of_mem a ht))

/-- C7 counterexample: the scenario `validate("SELECT * FROM secrets")`
with allowlist `{customers, products}` rejects, but the reason contains
the upper-cased `SECRETS`, not the table name `secrets` as written in
the statement. -/
theorem C7_table_reason_counterexample :
    validate_query allowlistValidator "SELECT * FROM secrets"
      = (false, "Access to table \x27SECRETS\x27 is not allowed") ∧
    pyIn "secrets" (validate_query allowlistValidator "SELECT * FROM secrets").2 = false := by
  decide

/-- C7 amended: with a non-empty allowlist and no blocked keyword
firing first, a statement one of whose extracted `FROM` tables is
(case-insensitively) absent from the allowlist is rejected with a
reason containing that table name as extracted from the upper-cased
statement; when every extracted table is allowlisted and no suspicious
pattern fires, the statement is accepted. -/
theorem C7_table_allowlist (v : SnowflakeSecurityValidator) (q : String)
    (hblocked : findBlocked (pyStrip (pyUpper q)) v.blocked_operations = none)
    (hne : v.allowed_tables ≠ []) :
    ((∃ t ∈ findAllFromTables (pyStrip (pyUpper q)),
        ((v.allowed_tables.map pyUpper).contains (pyUpper (stripQuotes t))) = false) →
      ∃ t ∈ findAllFromTables (pyStrip (pyUpper q)),
        ((v.allowed_tables.map pyUpper).contains (pyUpper (stripQuotes t))) = false ∧
        validate_query v q
          = (false, "Access to table \x27" ++ stripQuotes t ++ "\x27 is not allowed") ∧
        pyIn (stripQuotes t) (validate_query v q).2 = true)
    ∧ ((∀ t ∈ findAllFromTables (pyStrip (pyUpper q)),
        ((v.allowed_tables.map pyUpper).contains (pyUpper (stripQuotes t))) = true) →
      firstSuspicious (pyStrip (pyUpper q)) = none →
      validate_query v q = (true, "Query is valid")) := by
  have hempty : v.allowed_tables.isEmpty = false := by
    rw [List.isEmpty_eq_false]
    exact hne
  constructor
  · intro hex
    rcases firstDisallowed_some_of_exists v.allowed_tables _ hex with ⟨t, hmem, ht, hfind⟩
    have hval : validate_query v q
        = (false, "Access to table \x27" ++ stripQuotes t ++ "\x27 is not allowed") := by
      simp only [validate_query, hblocked, hempty, hfind]
      rfl
    refine ⟨t, hmem, ht, hval, ?_⟩
    rw [hval]
    exact pyIn_left_append (stripQuotes t) "Access to table \x27" "\x27 is not allowed"
  · intro hall hsusp
    have hfind := firstDisallowed_none_of_forall v.allowed_tables _ hall
    simp only [validate_query, hblocked, hempty, hfind, hsusp]
    rfl

/-- Witness for the amended C7: the rejection side at
`"SELECT * FROM secrets"` and the acceptance side at
`"SELECT * FROM customers"`, both under allowlist
`{customers, products}`. -/
theorem C7_table_allowlist_witness :
    (findBlocked (pyStrip (pyUpper "SELECT * FROM secrets"))
        allowlistValidator.blocked_operations = none) ∧
    allowlistValidator.allowed_tables ≠ [] ∧
    (∃ t ∈ findAllFromTables (pyStrip (pyUpper "SELECT * FROM secrets")),
        ((allowlistValidator.allowed_tables.map pyUpper).contains
          (pyUpper (stripQuotes t))) = false ∧
        validate_query allowlistValidator "SELECT * FROM secrets"
          = (false, "Access to table \x27" ++ stripQuotes t ++ "\x27 is not allowed") ∧
        pyIn (stripQuotes t)
          (validate_query allowlistValidator "SELECT * FROM secrets").2 = true) ∧
    validate_query allowlistValidator "SELECT * FROM customers" = (true, "Query is valid") :=
  ⟨by decide, by decide,
    (C7_table_allowlist allowlistValidator "SELECT * FROM secrets"
      (by decide) (by decide)).1 (by decide),
    (C7_table_allowlist allowlistValidator "SELECT * FROM customers"
      (by decide) (by decide)).2 (by decide) (by decide)⟩

theorem stripLit_append (w x : List Char) : stripLit w (w ++ x) = some x := by
  induction w with
  | nil => rfl
  | cons a ws ih =>
    show (if a = a then stripLit ws (ws ++ x) else none) = some x
    rw [if_pos rfl]
    exact ih

theorem dropWhile_all_append (p : Char → Bool) (a : List Char) (b : Char) (r : List Char)
    (ha : ∀ c ∈ a, p c = true) (hb : p b = false) :
    List.dropWhile p (a ++ b :: r) = b :: r := by
  induction a with
  | nil =>
    rw [List.nil_append, List.dropWhile_cons, if_neg (by rw [hb]; simp)]
  | cons c t ih =>
    rw [List.cons_append, List.dropWhile_cons,
      if_pos (ha c (List.mem_cons_self c t))]
    exact ih (fun d hd => ha d (List.mem_cons_of_mem c hd))

theorem matchFromAt_quoted_none (ws1 rest : List Char) (hne : ws1 ≠ [])
    (hws : ∀ c ∈ ws1, isPySpace c = true) :
    matchFromAt (('F' :: 'R' :: 'O' :: 'M' :: ws1) ++ '"' :: rest) = none := by
  cases ws1 with
  | nil => exact absurd rfl hne
  | cons w ws1' =>
    have hw : isPySpace w = true := hws w (List.mem_cons_self _ _)
    have hlist : ('F' :: 'R' :: 'O' :: 'M' :: (w :: ws1')) ++ '"' :: rest
        = ['F', 'R', 'O', 'M'] ++ (w :: (ws1' ++ '"' :: rest)) := by simp
    have hdrop : (ws1' ++ '"' :: rest).dropWhile isPySpace = '"' :: rest :=
      dropWhile_all_append isPySpace ws1' '"' rest
        (fun c hc => hws c (List.mem_cons_of_mem w hc)) (by decide)
    rw [hlist]
    unfold matchFromAt
    rw [stripLit_append]
    show (if isPySpace w = true then
        match (ws1' ++ '"' :: rest).dropWhile isPySpace with
        | [] => none
        | d :: t2 =>
          if isPyWordChar d = true then
            match (d :: t2).dropWhile isPyWordChar with
            | [] => some ((d :: t2).takeWhile isPyWordChar, [])
            | x :: r4 =>
              if x = '.' then
                match r4 with
                | [] => some ((d :: t2).takeWhile isPyWordChar, x :: r4)
                | e :: _ =>
                  if isPyWordChar e then
                    some ((d :: t2).takeWhile isPyWordChar ++ '.' :: r4.takeWhile isPyWordChar,
                      r4.dropWhile isPyWordChar)
                  else some ((d :: t2).takeWhile isPyWordChar, x :: r4)
              else some ((d :: t2).takeWhile isPyWordChar, x :: r4)
          else none
      else none) = none
    rw [if_pos hw, hdrop]
    show (if isPyWordChar '"' = true then _ else none) = none
    rw [if_neg (by decide)]

theorem matchFromAt_group_chars (l g rest : List Char)
    (h : matchFromAt l = some (g, rest)) :
    ∀ c ∈ g, isPyWordChar c = true ∨ c = '.' := by
  unfold matchFromAt at h
  split at h
  · simp at h
  · split at h
    · simp at h
    · split at h
      · split at h
        · simp at h
        · split at h
          · split at h
            · simp only [Option.some_inj, Prod.mk.injEq] at h
              rw [← h.1]
              intro c hc
              exact Or.inl (List.mem_takeWhile_imp hc)
            · rename_i x r4 hr3
              split at h
              · split at h
                · simp only [Option.some_inj, Prod.mk.injEq] at h
                  rw [← h.1]
                  intro c hc
                  exact Or.inl (List.mem_takeWhile_imp hc)
                · split at h
                  · simp only [Option.some_inj, Prod.mk.injEq] at h
                    rw [← h.1]
                    intro c hc
                    rcases List.mem_append.mp hc with hc1 | hc2
                    · exact Or.inl (List.mem_takeWhile_imp hc1)
                    · rcases List.mem_cons.mp hc2 with rfl | hc3
                      · exact Or.inr rfl
                      · exact Or.inl (List.mem_takeWhile_imp hc3)
                  · simp only [Option.some_inj, Prod.mk.injEq] at h
                    rw [← h.1]
                    intro c hc
                    exact Or.inl (List.mem_takeWhile_imp hc)
              · simp only [Option.some_inj, Prod.mk.injEq] at h
                rw [← h.1]
                intro c hc
                exact Or.inl (List.mem_takeWhile_imp hc)
          · simp at h
      · simp at h

theorem findAllFromAux_group_chars :
    ∀ (fuel : Nat) (l : List Char) (g : List Char), g ∈ findAllFromAux fuel l →
      ∀ c ∈ g, isPyWordChar c = true ∨ c = '.' := by
  intro fuel
  induction fuel with
  | zero =>
    intro l g hg
    simp [findAllFromAux] at hg
  | succ f ih =>
    intro l g hg
    cases l with
    | nil => simp [findAllFromAux] at hg
    | cons c t =>
      show ∀ d ∈ g, isPyWordChar d = true ∨ d = '.'
      have hg' : g ∈ (match matchFromAt (c :: t) with
          | some (g', rest) => g' :: findAllFromAux f rest
          | none => findAllFromAux f t) := hg
      cases hm : matchFromAt (c :: t) with
      | some p =>
        rcases p with ⟨g', rest⟩
        rw [hm] at hg'
        rcases List.mem_cons.mp hg' with rfl | hg''
        · exact matchFromAt_group_chars (c :: t) g rest hm
        · exact ih rest g hg''
      | none =>
        rw [hm] at hg'
        exact ih t g hg'

theorem stripQuotes_eq_self_of_chars (t : String)
    (h : ∀ c ∈ t.toList, isPyWordChar c = true ∨ c = '.') : stripQuotes t = t := by
  have hne : ∀ (c : Char), (isPyWordChar c = true ∨ c = '.') →
      (c != '"') = true ∧ (c != Char.ofNat 39) = true := by
    intro c hc
    constructor
    · rw [bne_iff_ne]
      intro heq
      subst heq
      rcases hc with hw | hd
      · simp [isPyWordChar, Char.isAlphanum, Char.isAlpha, Char.isUpper,
          Char.isLower, Char.isDigit] at hw
      · exact absurd hd (by decide)
    · rw [bne_iff_ne]
      intro heq
      subst heq
      rcases hc with hw | hd
      · simp [isPyWordChar, Char.isAlphanum, Char.isAlpha, Char.isUpper,
          Char.isLower, Char.isDigit] at hw
      · exact absurd hd (by decide)
  have h1 : t.toList.filter (fun d => d != '"') = t.toList :=
    List.filter_eq_self.mpr (fun c hc => (hne c (h c hc)).1)
  have h2 : pyReplaceDel '"' t = t := by
    show String.mk (t.toList.filter (fun d => d != '"')) = t
    rw [h1]
    rfl
  rw [stripQuotes, h2]
  show String.mk (t.toList.filter (fun d => d != Char.ofNat 39)) = t
  rw [List.filter_eq_self.mpr (fun c hc => (hne c (h c hc)).2)]
  rfl

/-- C10: a double-quoted table reference after `FROM` is invisible to
the allowlist: the extraction pattern fails at that position (a quote
is not a word character), every extracted table is quote-free — so the
quote-stripping step never removes anything — and concretely the
non-allowlisted `FROM "secrets"` is accepted. -/
theorem C10_quoted_table_invisible :
    (∀ (ws1 rest : List Char), ws1 ≠ [] → (∀ c ∈ ws1, isPySpace c = true) →
      matchFromAt (('F' :: 'R' :: 'O' :: 'M' :: ws1) ++ '"' :: rest) = none)
    ∧ (∀ (s t : String), t ∈ findAllFromTables s →
        (∀ c ∈ t.toList, isPyWordChar c = true ∨ c = '.') ∧ stripQuotes t = t)
    ∧ validate_query allowlistValidator "SELECT * FROM \"secrets\""
        = (true, "Query is valid") := by
  refine ⟨matchFromAt_quoted_none, ?_, by decide⟩
  intro s t ht
  rcases List.mem_map.mp ht with ⟨g, hg, rfl⟩
  have hchars : ∀ c ∈ g, isPyWordChar c = true ∨ c = '.' :=
    findAllFromAux_group_chars s.toList.length s.toList g hg
  have hchars' : ∀ c ∈ (String.mk g).toList, isPyWordChar c = true ∨ c = '.' := hchars
  exact ⟨hchars', stripQuotes_eq_self_of_chars _ hchars'⟩

/-- Witness for C10: the quoted position `FROM "x` with a one-space
run, a concrete extracted table of `"SELECT * FROM customers"`, and the
accepted quoted-secrets scenario. -/
theorem C10_quoted_table_invisible_witness :
    ((' ' :: []) ≠ [] ∧ (∀ c ∈ (' ' :: []), isPySpace c = true) ∧
      matchFromAt (('F' :: 'R' :: 'O' :: 'M' :: [' ']) ++ '"' :: ['x']) = none) ∧
    ("CUSTOMERS" ∈ findAllFromTables "SELECT * FROM CUSTOMERS" ∧
      (∀ c ∈ ("CUSTOMERS" : String).toList, isPyWordChar c = true ∨ c = '.') ∧
      stripQuotes "CUSTOMERS" = "CUSTOMERS") :=
  ⟨⟨by decide, by decide,
    C10_quoted_table_invisible.1 [' '] ['x'] (by decide) (by decide)⟩,
   by decide,
   (C10_quoted_table_invisible.2.1 "SELECT * FROM CUSTOMERS" "CUSTOMERS" (by decide)).1,
   (C10_quoted_table_invisible.2.1 "SELECT * FROM CUSTOMERS" "CUSTOMERS" (by decide)).2⟩

/-- C4: a statement that fails validation makes `execute_query` fail
immediately with the typed `ValueError` carrying the rejection reason,
and no warehouse action happens: no connect, no cursor, no statement
sent. -/
theorem C4_rejected_never_touches_warehouse (v : SnowflakeSecurityValidator)
    (runQ : String → List (List String)) (q : String)
    (hrej : (validate_query v q).1 = false) :
    execute_query v runQ q
      = (Except.error ("Query validation failed: " ++ (validate_query v q).2), []) := by
  simp only [execute_query, hrej, if_true]

/-- Witness for C4 at the blocked statement `"DROP TABLE users"`. -/
theorem C4_rejected_never_touches_warehouse_witness :
    (validate_query defaultValidator "DROP TABLE users").1 = false ∧
    execute_query defaultValidator (fun _ => []) "DROP TABLE users"
      = (Except.error ("Query validation failed: "
          ++ (validate_query defaultValidator "DROP TABLE users").2), []) :=
  ⟨by decide,
    C4_rejected_never_touches_warehouse defaultValidator (fun _ => []) "DROP TABLE users"
      (by decide)⟩

theorem dictGet_dictSet (l : List (String × JsonVal)) (k : String) (v : JsonVal) :
    dictGet (dictSet l k v) k = some v := by
  induction l with
  | nil => simp [dictSet, dictGet]
  | cons p t ih =>
    rcases p with ⟨k', v'⟩
    by_cases hk : k' = k
    · simp [dictSet, dictGet, hk]
    · simp only [dictSet, dictGet, hk, if_neg, if_false]
      exact ih

/-- C5: a token issued by `create_access_token` carries the claims with
`exp` set to `now + expires_delta` (or the configured default).
Verifying it strictly before that expiry returns the claims unchanged;
verifying it strictly after fails — the jose decode reports the token
expired, which `verify_token` surfaces as its 401 authentication
failure. -/
theorem C5_token_roundtrip (secret alg : String) (m : Int)
    (data : List (String × JsonVal)) (now : Int) (delta : Option Int) (t : Int) :
    (t < now + delta.getD (m * 60) →
      verify_token secret alg (create_access_token secret alg m data now delta) t
        = Except.ok (dictSet data "exp" (JsonVal.vInt (now + delta.getD (m * 60))))) ∧
    (now + delta.getD (m * 60) < t →
      verify_token secret alg (create_access_token secret alg m data now delta) t
        = Except.error "Could not validate credentials" ∧
      jwt_decode (create_access_token secret alg m data now delta) secret alg t
        = Except.error JoseError.expired) := by
  have hget : dictGet (dictSet data "exp" (JsonVal.vInt (now + delta.getD (m * 60)))) "exp"
      = some (JsonVal.vInt (now + delta.getD (m * 60))) := dictGet_dictSet data "exp" _
  constructor
  · intro hbefore
    have hdec : jwt_decode (create_access_token secret alg m data now delta) secret alg t
        = Except.ok (dictSet data "exp" (JsonVal.vInt (now + delta.getD (m * 60)))) := by
      show jwt_decode ⟨dictSet data "exp" (JsonVal.vInt (now + delta.getD (m * 60))),
        secret, alg⟩ secret alg t = _
      simp only [jwt_decode, hget, and_self, if_true]
      show (if now + delta.getD (m * 60) < t then Except.error JoseError.expired
        else Except.ok (dictSet data "exp" (JsonVal.vInt (now + delta.getD (m * 60)))))
        = Except.ok (dictSet data "exp" (JsonVal.vInt (now + delta.getD (m * 60))))
      rw [if_neg (by omega)]
    simp only [verify_token, hdec]
  · intro hafter
    have hdec : jwt_decode (create_access_token secret alg m data now delta) secret alg t
        = Except.error JoseError.expired := by
      show jwt_decode ⟨dictSet data "exp" (JsonVal.vInt (now + delta.getD (m * 60))),
        secret, alg⟩ secret alg t = _
      simp only [jwt_decode, hget, and_self, if_true]
      show (if now + delta.getD (m * 60) < t then Except.error JoseError.expired
        else Except.ok (dictSet data "exp" (JsonVal.vInt (now + delta.getD (m * 60)))))
        = Except.error JoseError.expired
      rw [if_pos hafter]
    refine ⟨?_, hdec⟩
    simp only [verify_token, hdec]

/-- Witness for C5: claims `{sub: alice}` issued at time 0 with the
default 30-minute expiry; verification at 100 succeeds with the claims
(`exp = 1800` included), verification at 2000 fails as expired. -/
theorem C5_token_roundtrip_witness :
    ((100 : Int) < 0 + (Option.none).getD ((30 : Int) * 60) ∧
      verify_token "k" "HS256"
        (create_access_token "k" "HS256" 30 [("sub", JsonVal.vStr "alice")] 0 none) 100
        = Except.ok (dictSet [("sub", JsonVal.vStr "alice")] "exp"
            (JsonVal.vInt (0 + (Option.none).getD ((30 : Int) * 60))))) ∧
    ((0 : Int) + (Option.none).getD ((30 : Int) * 60) < 2000 ∧
      verify_token "k" "HS256"
        (create_access_token "k" "HS256" 30 [("sub", JsonVal.vStr "alice")] 0 none) 2000
        = Except.error "Could not validate credentials" ∧
      jwt_decode (create_access_token "k" "HS256" 30 [("sub", JsonVal.vStr "alice")] 0 none)
        "k" "HS256" 2000 = Except.error JoseError.expired) :=
  ⟨⟨by decide,
    (C5_token_roundtrip "k" "HS256" 30 [("sub", JsonVal.vStr "alice")] 0 none 100).1
      (by decide)⟩,
   ⟨by decide,
    (C5_token_roundtrip "k" "HS256" 30 [("sub", JsonVal.vStr "alice")] 0 none 2000).2
      (by decide)⟩⟩

/-- C8: after any completed admission check, the caller's window holds
no timestamp at or beyond the retention horizon `now - window`,
whether the check admitted or rejected. -/
theorem C8_window_retention (m : Nat) (w : ℚ) (st : List ℚ) (t : ℚ) (hw : 0 < w) :
    ∀ x ∈ (check_rate_limit m w st t).2, t - w < x := by
  intro x hx
  simp only [check_rate_limit] at hx
  split at hx
  · replace hx : x ∈ List.filter (fun ts => decide (t - w < ts)) st := hx
    exact of_decide_eq_true (List.mem_filter.mp hx).2
  · replace hx : x ∈ List.filter (fun ts => decide (t - w < ts)) st ++ [t] := hx
    rcases List.mem_append.mp hx with h1 | h2
    · exact of_decide_eq_true (List.mem_filter.mp h1).2
    · rcases List.mem_singleton.mp h2 with rfl
      exact sub_lt_self x hw

/-- Witness for C8 at an admitting check from the empty window. -/
theorem C8_window_retention_witness :
    (0 : ℚ) < 1 ∧ ∀ x ∈ (check_rate_limit 1 1 [] 0).2, (0 : ℚ) - 1 < x :=
  ⟨by norm_num, C8_window_retention 1 1 [] 0 (by norm_num)⟩

theorem filter_filter_window (st : List ℚ) (a c : ℚ) (hac : a ≤ c) :
    (st.filter (fun x => decide (a < x))).filter (fun x => decide (c < x))
      = st.filter (fun x => decide (c < x)) := by
  rw [List.filter_filter]
  refine List.filter_congr ?_
  intro x _
  by_cases hcx : c < x
  · have hax : a < x := lt_of_le_of_lt hac hcx
    simp [hcx, hax]
  · simp [hcx]

theorem admitted_window_aux (m : Nat) (w : ℚ) :
    ∀ (calls st A : List ℚ) (b : ℚ),
      List.Pairwise (· ≤ ·) calls →
      (∀ t ∈ calls, b ≤ t - w) →
      (∀ c : ℚ, b ≤ c →
        (st.filter (fun x => decide (c < x))).length
          = (A.filter (fun x => decide (c < x))).length) →
      (∀ T : ℚ, (A.countP (fun x => decide (T - w < x ∧ x ≤ T))) ≤ m) →
      ∀ T : ℚ, ((A ++ admittedTimes m w st calls).countP
          (fun x => decide (T - w < x ∧ x ≤ T))) ≤ m := by
  intro calls
  induction calls with
  | nil =>
    intro st A b _ _ _ hA T
    simpa [admittedTimes] using hA T
  | cons t ts ih =>
    intro st A b hpair hb hst hA T
    have hpair' := List.pairwise_cons.mp hpair
    have hbt : b ≤ t - w := hb t (List.mem_cons_self t ts)
    have hkept : (st.filter (fun x => decide (t - w < x))).length
        = (A.filter (fun x => decide (t - w < x))).length := hst (t - w) hbt
    by_cases hd : m ≤ (st.filter (fun x => decide (t - w < x))).length
    · have hcheck : check_rate_limit m w st t
          = (false, st.filter (fun x => decide (t - w < x))) := by
        simp only [check_rate_limit]
        rw [if_pos hd]
      have hrun : admittedTimes m w st (t :: ts)
          = admittedTimes m w (st.filter (fun x => decide (t - w < x))) ts := by
        simp [admittedTimes, hcheck]
      rw [hrun]
      refine ih (st.filter (fun x => decide (t - w < x))) A (t - w) hpair'.2 ?_ ?_ hA T
      · intro t' ht'
        exact sub_le_sub_right (hpair'.1 t' ht') w
      · intro c hc
        rw [filter_filter_window st (t - w) c hc]
        exact hst c (le_trans hbt hc)
    · push_neg at hd
      have hcheck : check_rate_limit m w st t
          = (true, st.filter (fun x => decide (t - w < x)) ++ [t]) := by
        simp only [check_rate_limit]
        rw [if_neg (not_le.mpr hd)]
      have hrun : admittedTimes m w st (t :: ts)
          = t :: admittedTimes m w (st.filter (fun x => decide (t - w < x)) ++ [t]) ts := by
        simp [admittedTimes, hcheck]
      rw [hrun, List.append_cons]
      have hgoal := ih (st.filter (fun x => decide (t - w < x)) ++ [t]) (A ++ [t]) (t - w)
        hpair'.2 (fun t' ht' => sub_le_sub_right (hpair'.1 t' ht') w) ?hst' ?hA' T
      case hst' =>
        intro c hc
        rw [List.filter_append, List.filter_append, List.length_append, List.length_append,
          filter_filter_window st (t - w) c hc, hst c (le_trans hbt hc)]
      case hA' =>
        intro T'
        rw [List.countP_append]
        by_cases hin : T' - w < t ∧ t ≤ T'
        · have hmono : A.countP (fun x => decide (T' - w < x ∧ x ≤ T'))
              ≤ A.countP (fun x => decide (t - w < x)) := by
            refine List.countP_mono_left ?_
            intro x _ hx
            have hx' := of_decide_eq_true hx
            refine decide_eq_true ?_
            have : t - w ≤ T' - w := sub_le_sub_right hin.2 w
            linarith [hx'.1]
          have hcount : A.countP (fun x => decide (t - w < x))
              = (A.filter (fun x => decide (t - w < x))).length :=
            List.countP_eq_length_filter ..
          have hlt : A.countP (fun x => decide (T' - w < x ∧ x ≤ T')) < m := by
            rw [hcount, ← hkept] at hmono
            omega
          have hone : ([t].countP (fun x => decide (T' - w < x ∧ x ≤ T'))) ≤ 1 := by
            simp only [List.countP_cons, List.countP_nil]
            split <;> omega
          omega
        · have hpt : decide (T' - w < t ∧ t ≤ T') = false := decide_eq_false hin
          have hzero : ([t].countP (fun x => decide (T' - w < x ∧ x ≤ T'))) = 0 := by
            simp only [List.countP_cons, List.countP_nil, hpt]
            rfl
          rw [hzero]
          simpa using hA T'
      exact hgoal

theorem admitDecisions_append (m : Nat) (w : ℚ) :
    ∀ (l1 l2 st : List ℚ),
      admitDecisions m w st (l1 ++ l2)
        = admitDecisions m w st l1 ++ admitDecisions m w (runState m w st l1) l2 := by
  intro l1
  induction l1 with
  | nil => intro l2 st; rfl
  | cons t ts ih =>
    intro l2 st
    simp only [List.cons_append, admitDecisions, runState, List.append_eq]
    rw [ih]

theorem filter_replicate_of_pos (p : ℚ → Bool) (a : ℚ) (n : Nat) (h : p a = true) :
    (List.replicate n a).filter p = List.replicate n a := by
  induction n with
  | zero => rfl
  | succ k ih =>
    rw [List.replicate_succ, List.filter_cons, if_pos h, ih, ← List.replicate_succ]

theorem filter_replicate_of_neg (p : ℚ → Bool) (a : ℚ) (n : Nat) (h : p a = false) :
    (List.replicate n a).filter p = [] := by
  induction n with
  | zero => rfl
  | succ k ih =>
    rw [List.replicate_succ, List.filter_cons, if_neg (by rw [h]; simp), ih]

theorem check_rate_limit_replicate_zero (m : Nat) (w : ℚ) (k : Nat)
    (hw : 0 < w) (hk : k < m) :
    check_rate_limit m w (List.replicate k (0 : ℚ)) 0
      = (true, List.replicate (k + 1) (0 : ℚ)) := by
  have hfil : (List.replicate k (0 : ℚ)).filter (fun ts => decide ((0 : ℚ) - w < ts))
      = List.replicate k (0 : ℚ) := by
    refine filter_replicate_of_pos (fun ts => decide ((0 : ℚ) - w < ts)) 0 k ?_
    refine decide_eq_true ?_
    show (0 : ℚ) - w < 0
    linarith
  simp only [check_rate_limit, hfil, List.length_replicate]
  rw [if_neg (by omega), ← List.replicate_succ']

theorem run_replicate_zero (m : Nat) (w : ℚ) (hw : 0 < w) :
    ∀ (n k : Nat), k + n ≤ m →
      admitDecisions m w (List.replicate k (0 : ℚ)) (List.replicate n (0 : ℚ))
        = List.replicate n true ∧
      runState m w (List.replicate k (0 : ℚ)) (List.replicate n (0 : ℚ))
        = List.replicate (k + n) (0 : ℚ) := by
  intro n
  induction n with
  | zero =>
    intro k _
    exact ⟨rfl, rfl⟩
  | succ j ih =>
    intro k hk
    have hstep := check_rate_limit_replicate_zero m w k hw (by omega)
    have hrec := ih (k + 1) (by omega)
    constructor
    · rw [List.replicate_succ]
      simp only [admitDecisions, hstep]
      rw [hrec.1, ← List.replicate_succ]
    · rw [List.replicate_succ]
      simp only [runState, hstep]
      rw [hrec.2]
      congr 1
      omega

/-- C2: (i) for non-decreasing call times and any trailing half-open
window `(T - w, T]` — the retention semantics of the code, which keeps
timestamps strictly newer than `now - window` — at most `m` calls are
admitted inside the window; (ii) a rejected check records no timestamp:
the resulting window is a sublist of the previous one; (iii) with the
configured 100 requests per 3600 seconds, the 101st call at the same
instant as 100 admitted calls is rejected, and a call 3601 seconds
later is admitted. -/
theorem C2_rate_limiter_window :
    (∀ (m : Nat) (w : ℚ) (calls : List ℚ), List.Pairwise (· ≤ ·) calls →
      ∀ T : ℚ, ((admittedTimes m w [] calls).countP
          (fun x => decide (T - w < x ∧ x ≤ T))) ≤ m)
    ∧ (∀ (m : Nat) (w : ℚ) (st : List ℚ) (t : ℚ),
        (check_rate_limit m w st t).1 = false →
        List.Sublist (check_rate_limit m w st t).2 st)
    ∧ admitDecisions 100 3600 [] (List.replicate 100 (0 : ℚ) ++ [0, 3601])
        = List.replicate 100 true ++ [false, true] := by
  refine ⟨?_, ?_, ?_⟩
  · intro m w calls hpair T
    cases calls with
    | nil => simp [admittedTimes]
    | cons t0 ts =>
      have haux := admitted_window_aux m w (t0 :: ts) [] [] (t0 - w) hpair ?_ ?_ ?_ T
      · simpa using haux
      · intro t ht
        rcases List.mem_cons.mp ht with rfl | ht'
        · exact le_refl _
        · exact sub_le_sub_right ((List.pairwise_cons.mp hpair).1 t ht') w
      · intro c _
        rfl
      · intro T'
        simp
  · intro m w st t hrej
    by_cases hd : m ≤ (st.filter (fun ts => decide (t - w < ts))).length
    · have : (check_rate_limit m w st t).2 = st.filter (fun ts => decide (t - w < ts)) := by
        simp only [check_rate_limit]
        rw [if_pos hd]
      rw [this]
      exact List.filter_sublist st
    · have : (check_rate_limit m w st t).1 = true := by
        simp only [check_rate_limit]
        rw [if_neg hd]
      rw [this] at hrej
      simp at hrej
  · have h1 : admitDecisions 100 3600 ([] : List ℚ) (List.replicate 100 (0 : ℚ) ++ [0, 3601])
        = admitDecisions 100 3600 [] (List.replicate 100 (0 : ℚ))
          ++ admitDecisions 100 3600 (runState 100 3600 [] (List.replicate 100 (0 : ℚ)))
            [0, 3601] := admitDecisions_append 100 3600 _ _ _
    have hrepl := run_replicate_zero 100 3600 (by norm_num) 100 0 (by omega)
    have hrepl0 : (List.replicate 0 (0 : ℚ)) = ([] : List ℚ) := rfl
    rw [hrepl0] at hrepl
    have hfull : (List.filter (fun ts => decide ((0 : ℚ) - 3600 < ts))
        (List.replicate 100 (0 : ℚ))) = List.replicate 100 (0 : ℚ) := by
      refine filter_replicate_of_pos _ 0 100 ?_
      refine decide_eq_true ?_
      show (0 : ℚ) - 3600 < 0
      norm_num
    have hstep1 : check_rate_limit 100 3600 (List.replicate 100 (0 : ℚ)) 0
        = (false, List.replicate 100 (0 : ℚ)) := by
      simp only [check_rate_limit, hfull, List.length_replicate]
      rw [if_pos (by omega)]
    have hempty : (List.filter (fun ts => decide ((3601 : ℚ) - 3600 < ts))
        (List.replicate 100 (0 : ℚ))) = [] := by
      refine filter_replicate_of_neg _ 0 100 ?_
      refine decide_eq_false ?_
      show ¬ ((3601 : ℚ) - 3600 < 0)
      norm_num
    have hstep2 : check_rate_limit 100 3600 (List.replicate 100 (0 : ℚ)) 3601
        = (true, [(3601 : ℚ)]) := by
      simp only [check_rate_limit, hempty, List.length_nil]
      rw [if_neg (by omega)]
      rfl
    rw [h1, hrepl.1, hrepl.2]
    have htail : admitDecisions 100 3600 (List.replicate 100 (0 : ℚ)) [0, 3601]
        = [false, true] := by
      show (check_rate_limit 100 3600 (List.replicate 100 (0 : ℚ)) 0).1
          :: (check_rate_limit 100 3600
              (check_rate_limit 100 3600 (List.replicate 100 (0 : ℚ)) 0).2 3601).1
          :: [] = [false, true]
      rw [hstep1]
      show false :: (check_rate_limit 100 3600 (List.replicate 100 (0 : ℚ)) 3601).1 :: []
          = [false, true]
      rw [hstep2]
    rw [htail]

/-- Witness for C2: the window bound applied to the concrete sorted
trace `[0, 5]` with `m = 2`, `w = 10`, `T = 5`, and the rejection
conjunct applied to a full window (`m = 0`). -/
theorem C2_rate_limiter_window_witness :
    (List.Pairwise (· ≤ ·) ([0, 5] : List ℚ) ∧
      ((admittedTimes 2 10 [] ([0, 5] : List ℚ)).countP
          (fun x => decide ((5 : ℚ) - 10 < x ∧ x ≤ 5))) ≤ 2) ∧
    ((check_rate_limit 0 10 ([] : List ℚ) 0).1 = false ∧
      List.Sublist (check_rate_limit 0 10 ([] : List ℚ) 0).2 []) :=
  ⟨⟨by norm_num, C2_rate_limiter_window.1 2 10 [0, 5] (by norm_num) 5⟩,
   ⟨by norm_num [check_rate_limit],
    C2_rate_limiter_window.2.1 0 10 [] 0 (by norm_num [check_rate_limit])⟩⟩

theorem add_safety_limits_skip_of_limit (v : SnowflakeSecurityValidator) (q : String)
    (h : pyIn "LIMIT" (pyUpper q) = true) : add_safety_limits v q = q := by
  have hs : pyIn "LIMIT" (pyStrip (pyUpper q)) = true :=
    pyIn_pyStrip "LIMIT" (pyUpper q) (by decide) h
  simp [add_safety_limits, hs]

/-- C6: a statement that already contains a limit clause — hence the
keyword `LIMIT` in some letter-casing — is returned byte-identical by
`add_safety_limits`, so re-applying it to its own output is the same
as applying it once. -/
theorem C6_applyLimits_idempotent (v : SnowflakeSecurityValidator) (q : String)
    (h : pyIn "LIMIT" (pyUpper q) = true) :
    add_safety_limits v q = q ∧
    add_safety_limits v (add_safety_limits v q) = add_safety_limits v q := by
  have h1 := add_safety_limits_skip_of_limit v q h
  refine ⟨h1, ?_⟩
  rw [h1]
  exact h1

/-- Witness for C6 at `"SELECT * FROM customers LIMIT 50"`. -/
theorem C6_applyLimits_idempotent_witness :
    pyIn "LIMIT" (pyUpper "SELECT * FROM customers LIMIT 50") = true ∧
    (add_safety_limits defaultValidator "SELECT * FROM customers LIMIT 50"
        = "SELECT * FROM customers LIMIT 50" ∧
     add_safety_limits defaultValidator
        (add_safety_limits defaultValidator "SELECT * FROM customers LIMIT 50")
        = add_safety_limits defaultValidator "SELECT * FROM customers LIMIT 50") :=
  ⟨by decide,
    C6_applyLimits_idempotent defaultValidator "SELECT * FROM customers LIMIT 50" (by decide)⟩

/-- C9: any statement whose upper-cased text contains the substring
`LIMIT` anywhere — inside a longer identifier or a string literal
included, with no actual limit clause — is returned byte-identical by
`add_safety_limits`: no row bound is injected. -/
theorem C9_limit_substring_skips (v : SnowflakeSecurityValidator) (q : String)
    (h : pyIn "LIMIT" (pyUpper q) = true) :
    add_safety_limits v q = q :=
  add_safety_limits_skip_of_limit v q h

/-- Witness for C9 at `"SELECT LIMIT_VALUE FROM configs"`: the keyword
occurs only inside the identifier `LIMIT_VALUE`, yet no bound is added. -/
theorem C9_limit_substring_skips_witness :
    pyIn "LIMIT" (pyUpper "SELECT LIMIT_VALUE FROM configs") = true ∧
    add_safety_limits defaultValidator "SELECT LIMIT_VALUE FROM configs"
      = "SELECT LIMIT_VALUE FROM configs" :=
  ⟨by decide,
    C9_limit_substring_skips defaultValidator "SELECT LIMIT_VALUE FROM configs" (by decide)⟩
